import Mathlib

/-!
Verification of the `rndgo` repository against its specification.

Two components carry the claims:

* `throttler` (src/throttler/throttler.go): a rate-limited batch dispatcher.
  Its state is a buffer of pending values, an optional countdown timer
  (`resumeTimer`, `none` when idle) and the count of in-flight background
  `resume` goroutines.  The mutex serializes `Push` calls and the timer-expiry
  handler `resume`; we model the serialized history as a list of events, each
  carrying the (natural-number) time at which its critical section ran.

* `timelatch` (src/timelatch/timelatch.go): a one-shot edge-triggered time
  comparator.  `time.Time` values are modelled as integers with `Before` as
  strict `<`.
-/

namespace Throttler

/-- The mutable state of a `Throttler[T]` as observed between critical
sections: `buffer` is the slice of pending values, `deadline` models the
`resumeTimer` field (`none` when the timer is nil/idle, `some d` when a
countdown is running and will fire at absolute time `d`), and `tasks` counts
the background `resume` goroutines currently in flight. -/
structure State (T : Type) where
  buffer : List T
  deadline : Option Nat
  tasks : Nat
  deriving Repr, DecidableEq

/-- `New` builds a throttler with nil buffer and nil timer (Go zero values),
and no background goroutine has been spawned yet. -/
def initState (T : Type) : State T := ⟨[], none, 0⟩

/-- One serialized critical section: either a `Push now v` call that acquired
the lock at time `now`, or the expiry handler (`resume`, after receiving from
the timer channel) that acquired the lock at time `now`. -/
inductive Event (T : Type) where
  | push (now : Nat) (v : T)
  | expire (now : Nat)
  deriving Repr, DecidableEq

/-- The lock-acquisition time of an event. -/
def Event.time {T : Type} : Event T → Nat
  | .push now _ => now
  | .expire now => now

/-- Body of `Throttler.Push` (src/throttler/throttler.go lines 69-83), run
with the lock held at time `now` and window `w`.  Returns the new state and
`some (now, batch)` when the callback was invoked synchronously with `batch`
during the call, `none` otherwise.  If the timer is nil the value is appended,
the callback fires with the whole buffer, the buffer is cleared, a timer for
`w` is started and a `resume` goroutine is spawned; otherwise the value is
only appended to the buffer. -/
def Push {T : Type} (w : Nat) (s : State T) (now : Nat) (v : T) :
    State T × Option (Nat × List T) :=
  match s.deadline with
  | none => (⟨[], some (now + w), s.tasks + 1⟩, some (now, s.buffer ++ [v]))
  | some d => (⟨s.buffer ++ [v], some d, s.tasks⟩, none)

/-- Body of `Throttler.resume` after the timer fired (src/throttler/throttler.go
lines 40-54), run with the lock held at time `now`.  The running `resume`
goroutine finishes (`tasks - 1`); with a non-empty buffer it dispatches the
buffer, clears it, starts a new timer and spawns its successor goroutine;
with an empty buffer it sets the timer to nil.  When `deadline` is `none` no
timer exists, so no expiry can occur and the state is unchanged (such events
are excluded from well-formed histories). -/
def resume {T : Type} (w : Nat) (s : State T) (now : Nat) :
    State T × Option (Nat × List T) :=
  match s.deadline with
  | none => (s, none)
  | some _ =>
    if s.buffer.isEmpty then
      (⟨s.buffer, none, s.tasks - 1⟩, none)
    else
      (⟨[], some (now + w), s.tasks - 1 + 1⟩, some (now, s.buffer))

/-- Dispatch one serialized event to the corresponding critical section. -/
def step {T : Type} (w : Nat) (s : State T) : Event T → State T × Option (Nat × List T)
  | .push now v => Push w s now v
  | .expire now => resume w s now

/-- Run a serialized history of events, collecting the callback invocations
(in order) as `(time, batch)` pairs. -/
def run {T : Type} (w : Nat) (s : State T) : List (Event T) → State T × List (Nat × List T)
  | [] => (s, [])
  | e :: es =>
    let p := step w s e
    let r := run w p.1 es
    (r.1, p.2.elim r.2 (fun o => o :: r.2))

/-- A state is reachable when some serialized history leads to it from a fresh
throttler. -/
def Reachable {T : Type} (w : Nat) (s : State T) : Prop :=
  ∃ es : List (Event T), (run w (initState T) es).1 = s

/-- The values pushed by a history, in serialization (lock-acquisition)
order. -/
def pushedValues {T : Type} : List (Event T) → List T
  | [] => []
  | .push _ v :: es => v :: pushedValues es
  | .expire _ :: es => pushedValues es

/-- The throttler's state invariant: when the timer is nil the buffer is
empty, and exactly one `resume` goroutine is in flight while a countdown is
running (none while idle). -/
def Inv {T : Type} (s : State T) : Prop :=
  (s.deadline = none → s.buffer = []) ∧
    s.tasks = (if s.deadline.isSome then 1 else 0)

/-- The times at which the `Push` calls of a history acquired the lock, in
serialization order (expiry events contribute nothing). -/
def pushTimes {T : Type} : List (Event T) → List Nat
  | [] => []
  | .push now _ :: es => now :: pushTimes es
  | .expire _ :: es => pushTimes es

/-- A history is well formed for window `w`, starting state `s` and time
lower bound `t0` when event times are strictly increasing — the events are
the lock's critical sections, serialized one after the other, so distinct
events run at distinct instants — and every expiry event is the firing of
the currently running timer: it happens no earlier than the timer's
deadline (the `resume` goroutine receives from the channel at the deadline
and may acquire the lock later). -/
def WF {T : Type} (w : Nat) (s : State T) (t0 : Nat) : List (Event T) → Prop
  | [] => True
  | .push now v :: es => t0 ≤ now ∧ WF w (step w s (.push now v)).1 (now + 1) es
  | .expire now :: es =>
    t0 ≤ now ∧ (∃ d, s.deadline = some d ∧ d ≤ now) ∧
      WF w (step w s (.expire now)).1 (now + 1) es

end Throttler

namespace Locking

/-- An operation on the throttler's `sync.Mutex`, as performed by a single
thread of control. -/
inductive LockOp where
  | acquire
  | release
  deriving Repr, DecidableEq

/-- Execute a sequence of mutex operations from a single thread, starting with
the mutex in state `held`.  A Go `sync.Mutex` is not reentrant: `Lock` on a
mutex already held by the executing thread blocks forever, and `Unlock` of an
unlocked mutex faults; both are modelled as `none` (no normal completion).
`some held'` is normal completion with final mutex state `held'`. -/
def runOps : Bool → List LockOp → Option Bool
  | held, [] => some held
  | false, .acquire :: rest => runOps true rest
  | true, .acquire :: _ => none
  | true, .release :: rest => runOps false rest
  | false, .release :: _ => none

/-- The mutex operations performed by `Throttler.Push` when it runs the
callback (src/throttler/throttler.go lines 70-78): `t.mutex.Lock()`, then the
callback body `cb` executes while the lock is held, then the deferred
`t.mutex.Unlock()`. -/
def pushOps (cb : List LockOp) : List LockOp :=
  LockOp.acquire :: (cb ++ [LockOp.release])

end Locking

namespace Timelatch

/-- The `TimeLatch` struct (src/timelatch/timelatch.go): `before` records
whether the last observed reference time was before the target time `t`.
`time.Time` is modelled as an integer instant; `now.Before(t)` is `now < t`. -/
structure TimeLatch where
  before : Bool
  t : Int
  deriving Repr, DecidableEq

/-- `NewAt(t, now)` from the source: the latch targeting `t` whose edge
detector is initialized from the reference time `now`. -/
def NewAt (t now : Int) : TimeLatch :=
  ⟨decide (now < t), t⟩

/-- `SetTimeAt(t, now)` from the source: retarget the latch to `t` and reset
the edge detector from the reference time `now`. -/
def TimeLatch.SetTimeAt (_trig : TimeLatch) (t now : Int) : TimeLatch :=
  ⟨decide (now < t), t⟩

/-- `TriggeredAt(now)` from the source: returns `wasBefore && !(now < t)` and
stores `now < t` as the new `before` state. -/
def TimeLatch.TriggeredAt (trig : TimeLatch) (now : Int) : Bool × TimeLatch :=
  (trig.before && !(decide (now < trig.t)), ⟨decide (now < trig.t), trig.t⟩)

/-- The results of a sequence of `TriggeredAt` calls with reference times
`ns`, threading the latch state. -/
def triggeredRun (trig : TimeLatch) : List Int → List Bool
  | [] => []
  | n :: ns =>
    let p := trig.TriggeredAt n
    p.1 :: triggeredRun p.2 ns

/-- The latch state after a sequence of `TriggeredAt` calls with reference
times `ns`. -/
def latchAfter (trig : TimeLatch) : List Int → TimeLatch
  | [] => trig
  | n :: ns => latchAfter (trig.TriggeredAt n).2 ns

end Timelatch

namespace Throttler

lemma inv_initState (T : Type) : Inv (initState T) := by
  simp [Inv, initState]

lemma inv_step {T : Type} (w : Nat) (s : State T) (e : Event T) (h : Inv s) :
    Inv (step w s e).1 := by
  obtain ⟨hbuf, htasks⟩ := h
  cases e with
  | push now v =>
    cases hd : s.deadline with
    | none => simp [step, Push, hd, Inv, htasks]
    | some d => simp [step, Push, hd, Inv, htasks]
  | expire now =>
    cases hd : s.deadline with
    | none =>
      simp only [step, resume, hd]
      exact ⟨hbuf, htasks⟩
    | some d =>
      by_cases hb : s.buffer.isEmpty
      · simp [step, resume, hd, hb, Inv, htasks, List.isEmpty_iff.mp hb]
      · simp [step, resume, hd, hb, Inv, htasks]

lemma inv_run {T : Type} (w : Nat) (es : List (Event T)) :
    ∀ s : State T, Inv s → Inv (run w s es).1 := by
  induction es with
  | nil => intro s h; exact h
  | cons e es ih =>
    intro s h
    simpa [run] using ih _ (inv_step w s e h)

lemma inv_reachable {T : Type} (w : Nat) (s : State T) (h : Reachable w s) :
    Inv s := by
  obtain ⟨es, hes⟩ := h
  simpa [hes] using inv_run w es (initState T) (inv_initState T)

/-- C1: pushing a value `v` to a reachable idle throttler (nil timer) invokes
the callback synchronously during the `Push` call with the batch `[v]`
containing exactly the pushed value, leaves the buffer empty, and starts a
countdown for the configured window `w` (the timer becomes non-nil,
transitioning to the throttling state). -/
theorem push_idle_leading_edge {T : Type} (w now : Nat) (v : T) (s : State T)
    (hr : Reachable w s) (hidle : s.deadline = none) :
    (Push w s now v).2 = some (now, [v]) ∧
      (Push w s now v).1.buffer = [] ∧
      (Push w s now v).1.deadline = some (now + w) := by
  have hbuf : s.buffer = [] := (inv_reachable w s hr).1 hidle
  simp [Push, hidle, hbuf]

theorem push_idle_leading_edge_witness :
    Throttler.Reachable 5 (Throttler.initState Nat) ∧
      (Throttler.initState Nat).deadline = none ∧
      (Throttler.Push 5 (Throttler.initState Nat) 0 7).2 = some (0, [7]) :=
  ⟨⟨[], rfl⟩, rfl,
    (push_idle_leading_edge 5 0 7 (Throttler.initState Nat) ⟨[], rfl⟩ rfl).1⟩

/-- C2: when the countdown of a throttling throttler (non-nil timer) expires
at time `now`: with a non-empty buffer, the callback is invoked synchronously
with the buffered values, the buffer is cleared and a new countdown for the
window is started (timer stays non-nil); with an empty buffer, no callback is
invoked and the timer becomes nil (idle), discarding the countdown. -/
theorem resume_expiry {T : Type} (w now d : Nat) (s : State T)
    (hd : s.deadline = some d) :
    (s.buffer ≠ [] →
      (resume w s now).2 = some (now, s.buffer) ∧
        (resume w s now).1.buffer = [] ∧
        (resume w s now).1.deadline = some (now + w)) ∧
    (s.buffer = [] →
      (resume w s now).2 = none ∧ (resume w s now).1.deadline = none) := by
  constructor
  · intro hb
    have hb' : s.buffer.isEmpty = false := by
      simpa [List.isEmpty_iff] using hb
    simp [resume, hd, hb']
  · intro hb
    simp [resume, hd, hb]

theorem resume_expiry_witness :
    ((⟨[7], some 3, 1⟩ : Throttler.State Nat).deadline = some 3) ∧
      (Throttler.resume 5 (⟨[7], some 3, 1⟩ : Throttler.State Nat) 3).2 =
        some (3, [7]) :=
  ⟨rfl, ((resume_expiry 5 3 3 (⟨[7], some 3, 1⟩ : Throttler.State Nat) rfl).1
    (by simp)).1⟩

/-- C5: in every reachable quiescent state, if no countdown timer is active
(the timer is nil, i.e. the throttler is not in the throttling state) then the
buffer is empty. -/
theorem buffer_empty_when_idle {T : Type} (w : Nat) (s : State T)
    (hr : Reachable w s) (hidle : s.deadline = none) : s.buffer = [] :=
  (inv_reachable w s hr).1 hidle

theorem buffer_empty_when_idle_witness :
    Throttler.Reachable 5 (Throttler.initState Nat) ∧
      (Throttler.initState Nat).deadline = none ∧
      (Throttler.initState Nat).buffer = [] :=
  ⟨⟨[], rfl⟩, rfl,
    buffer_empty_when_idle 5 (Throttler.initState Nat) ⟨[], rfl⟩ rfl⟩

/-- C7: in every reachable quiescent state, the number of in-flight background
countdown (`resume`) tasks is exactly one while a countdown is active and zero
while idle — in particular it never exceeds one.  In the model a task is
spawned only in the idle branch of `Push` (the idle-to-throttling transition)
and in the re-arming branch of `resume`, mirroring the two `go t.resume()`
statements in the source. -/
theorem single_countdown_task {T : Type} (w : Nat) (s : State T)
    (hr : Reachable w s) :
    s.tasks = (if s.deadline.isSome then 1 else 0) ∧ s.tasks ≤ 1 := by
  have h := (inv_reachable w s hr).2
  refine ⟨h, ?_⟩
  rw [h]
  split <;> simp

lemma run_flushes_append {T : Type} (w : Nat) (es : List (Event T)) :
    ∀ s : State T,
      ((run w s es).2.map Prod.snd).flatten ++ (run w s es).1.buffer =
        s.buffer ++ pushedValues es := by
  induction es with
  | nil => intro s; simp [run, pushedValues]
  | cons e es ih =>
    intro s
    cases e with
    | push now v =>
      cases hd : s.deadline with
      | none => simp [run, step, Push, hd, pushedValues, ih]
      | some d => simp [run, step, Push, hd, pushedValues, ih]
    | expire now =>
      cases hd : s.deadline with
      | none => simp [run, step, resume, hd, pushedValues, ih]
      | some d =>
        by_cases hb : s.buffer.isEmpty
        · simp [run, step, resume, hd, hb, pushedValues, ih]
        · simp [run, step, resume, hd, hb, pushedValues, ih]

/-- C4: over any serialized history of `Push` calls and timer expiries (the
serialization order established by lock acquisition), the concatenation of all
batches passed to the callback, followed by the values still pending in the
buffer, is exactly the list of pushed values in push order — no value is
dropped, duplicated, or reordered between flushes. -/
theorem order_preservation {T : Type} (w : Nat) (es : List (Event T)) :
    ((run w (initState T) es).2.map Prod.snd).flatten ++
        (run w (initState T) es).1.buffer =
      pushedValues es := by
  simpa [initState] using run_flushes_append w es (initState T)

lemma run_batches_ne_nil {T : Type} (w : Nat) (es : List (Event T)) :
    ∀ (s : State T) (p : Nat × List T), p ∈ (run w s es).2 → p.2 ≠ [] := by
  induction es with
  | nil => intro s p hp; simp [run] at hp
  | cons e es ih =>
    intro s p hp
    cases e with
    | push now v =>
      cases hd : s.deadline with
      | none =>
        simp [run, step, Push, hd] at hp
        rcases hp with hp | hp
        · simp [hp]
        · exact ih _ p hp
      | some d =>
        simp [run, step, Push, hd] at hp
        exact ih _ p hp
    | expire now =>
      cases hd : s.deadline with
      | none =>
        simp [run, step, resume, hd] at hp
        exact ih _ p hp
      | some d =>
        by_cases hb : s.buffer.isEmpty
        · simp [run, step, resume, hd, hb] at hp
          exact ih _ p hp
        · simp [run, step, resume, hd, hb] at hp
          rcases hp with hp | hp
          · rw [hp]
            simpa [List.isEmpty_iff] using hb
          · exact ih _ p hp

/-- C6: every batch passed to the callback in any serialized history of a
throttler is non-empty. -/
theorem callback_nonempty {T : Type} (w : Nat) (es : List (Event T))
    (p : Nat × List T) (hp : p ∈ (run w (initState T) es).2) : p.2 ≠ [] :=
  run_batches_ne_nil w es (initState T) p hp

theorem callback_nonempty_witness :
    ((0, [7]) : Nat × List Nat) ∈
        (Throttler.run 5 (Throttler.initState Nat) [.push 0 7]).2 ∧
      (((0, [7]) : Nat × List Nat)).2 ≠ [] :=
  ⟨by decide, callback_nonempty 5 [.push 0 7] (0, [7]) (by decide)⟩

lemma emit_mem {T : Type} (w : Nat) :
    ∀ (es : List (Event T)) (s : State T) (p : Nat × List T),
      p ∈ (run w s es).2 → ∃ e ∈ es, e.time = p.1 := by
  intro es
  induction es with
  | nil => intro s p hp; simp [run] at hp
  | cons e es ih =>
    intro s p hp
    cases e with
    | push now v =>
      cases hd : s.deadline with
      | none =>
        simp [run, step, Push, hd] at hp
        rcases hp with hp | hp
        · exact ⟨.push now v, by simp, by simp [hp, Event.time]⟩
        · obtain ⟨e, he, ht⟩ := ih _ p hp
          exact ⟨e, by simp [he], ht⟩
      | some d =>
        simp [run, step, Push, hd] at hp
        obtain ⟨e, he, ht⟩ := ih _ p hp
        exact ⟨e, by simp [he], ht⟩
    | expire now =>
      cases hd : s.deadline with
      | none =>
        simp [run, step, resume, hd] at hp
        obtain ⟨e, he, ht⟩ := ih _ p hp
        exact ⟨e, by simp [he], ht⟩
      | some d =>
        by_cases hb : s.buffer.isEmpty
        · simp [run, step, resume, hd, hb] at hp
          obtain ⟨e, he, ht⟩ := ih _ p hp
          exact ⟨e, by simp [he], ht⟩
        · simp [run, step, resume, hd, hb] at hp
          rcases hp with hp | hp
          · exact ⟨.expire now, by simp, by simp [hp, Event.time]⟩
          · obtain ⟨e, he, ht⟩ := ih _ p hp
            exact ⟨e, by simp [he], ht⟩

lemma emit_time_lb {T : Type} (w : Nat) :
    ∀ (es : List (Event T)) (s : State T) (t0 : Nat), WF w s t0 es →
      ∀ p ∈ (run w s es).2, t0 ≤ p.1 := by
  intro es
  induction es with
  | nil => intro s t0 _ p hp; simp [run] at hp
  | cons e es ih =>
    intro s t0 hwf p hp
    have hstep : ∀ τ, t0 ≤ τ → τ + 1 ≤ p.1 → t0 ≤ p.1 := by
      intro τ h1 h2; omega
    cases e with
    | push now v =>
      obtain ⟨ht0, hwf'⟩ := hwf
      cases hd : s.deadline with
      | none =>
        simp [run, step, Push, hd] at hp
        rcases hp with hp | hp
        · simp [hp, ht0]
        · exact hstep now ht0
            (ih _ (now + 1) (by simpa [step, Push, hd] using hwf') p hp)
      | some d =>
        simp [run, step, Push, hd] at hp
        exact hstep now ht0
          (ih _ (now + 1) (by simpa [step, Push, hd] using hwf') p hp)
    | expire now =>
      obtain ⟨ht0, ⟨d, hd, _⟩, hwf'⟩ := hwf
      by_cases hb : s.buffer.isEmpty
      · simp [run, step, resume, hd, hb] at hp
        exact hstep now ht0
          (ih _ (now + 1) (by simpa [step, resume, hd, hb] using hwf') p hp)
      · simp [run, step, resume, hd, hb] at hp
        rcases hp with hp | hp
        · simp [hp, ht0]
        · exact hstep now ht0
            (ih _ (now + 1) (by simpa [step, resume, hd, hb] using hwf') p hp)

lemma emit_chain {T : Type} (w : Nat) :
    ∀ (es : List (Event T)) (s : State T) (t0 l : Nat), WF w s t0 es →
      (∀ d, s.deadline = some d → l + w ≤ d) →
      (s.deadline = none → l + w ≤ t0) →
      List.Chain (fun a b => a + w ≤ b) l ((run w s es).2.map Prod.fst) := by
  intro es
  induction es with
  | nil => intro s t0 l _ _ _; simp [run]
  | cons e es ih =>
    intro s t0 l hwf h1 h2
    cases e with
    | push now v =>
      obtain ⟨ht0, hwf'⟩ := hwf
      cases hd : s.deadline with
      | none =>
        have hln : l + w ≤ now := le_trans (h2 hd) ht0
        have hrest := ih _ (now + 1) now (by simpa [step, Push, hd] using hwf')
          (by intro d' hd'; simp at hd'; omega) (by simp)
        simp [run, step, Push, hd]
        exact ⟨hln, hrest⟩
      | some d =>
        have hrest := ih _ (now + 1) l (by simpa [step, Push, hd] using hwf')
          (by intro d' hd'; simp at hd'; subst hd'; exact h1 d hd) (by simp)
        simpa [run, step, Push, hd] using hrest
    | expire now =>
      obtain ⟨ht0, ⟨d, hd, hdn⟩, hwf'⟩ := hwf
      have hld : l + w ≤ d := h1 d hd
      by_cases hb : s.buffer.isEmpty
      · have hrest := ih _ (now + 1) l (by simpa [step, resume, hd, hb] using hwf')
          (by simp) (fun _ => le_trans hld (le_trans hdn (Nat.le_succ now)))
        simpa [run, step, resume, hd, hb] using hrest
      · have hrest := ih _ (now + 1) now (by simpa [step, resume, hd, hb] using hwf')
          (by intro d' hd'; simp at hd'; omega) (by simp)
        simp [run, step, resume, hd, hb]
        exact ⟨le_trans hld hdn, hrest⟩

lemma emit_chain_init {T : Type} (w : Nat) (es : List (Event T)) (t0 : Nat)
    (hwf : WF w (initState T) t0 es) :
    List.Chain' (fun a b => a + w ≤ b)
      ((run w (initState T) es).2.map Prod.fst) := by
  cases es with
  | nil => simp [run]
  | cons e es =>
    cases e with
    | push now v =>
      obtain ⟨ht0, hwf'⟩ := hwf
      have hrest := emit_chain w es _ (now + 1) now
        (by simpa [step, Push, initState] using hwf')
        (by intro d hd; simp at hd; omega) (by simp)
      simp [run, step, Push, initState]
      exact hrest
    | expire now =>
      obtain ⟨_, ⟨d, hd, _⟩, _⟩ := hwf
      simp [initState] at hd

lemma chain_le_exists (w : Nat) :
    ∀ (ts : List Nat) (x : Nat), List.Chain (fun a b => a + w ≤ b) x ts →
      ∃ y ∈ x :: ts, x + ts.length * w ≤ y := by
  intro ts
  induction ts with
  | nil => intro x _; exact ⟨x, by simp⟩
  | cons y ts ih =>
    intro x hc
    rcases List.chain_cons.mp hc with ⟨hxy, hc'⟩
    obtain ⟨z, hz, hle⟩ := ih y hc'
    refine ⟨z, List.mem_cons_of_mem x hz, ?_⟩
    calc x + (y :: ts).length * w = (x + w) + ts.length * w := by
          simp [List.length_cons, Nat.succ_mul]; ring
      _ ≤ y + ts.length * w := Nat.add_le_add_right hxy _
      _ ≤ z := hle

lemma pushTimes_lb {T : Type} (w : Nat) :
    ∀ (es : List (Event T)) (s : State T) (t0 : Nat), WF w s t0 es →
      ∀ τ ∈ pushTimes es, t0 ≤ τ := by
  intro es
  induction es with
  | nil => intro s t0 _ τ hτ; simp [pushTimes] at hτ
  | cons e es ih =>
    intro s t0 hwf τ hτ
    cases e with
    | push now v =>
      obtain ⟨ht0, hwf'⟩ := hwf
      simp only [pushTimes, List.mem_cons] at hτ
      rcases hτ with rfl | hτ
      · exact ht0
      · have := ih _ (now + 1) hwf' τ hτ
        omega
    | expire now =>
      obtain ⟨ht0, _, hwf'⟩ := hwf
      have := ih _ (now + 1) hwf' τ hτ
      omega

lemma no_push_no_emit {T : Type} (w : Nat) :
    ∀ (es : List (Event T)) (s : State T), s.buffer = [] → pushTimes es = [] →
      (run w s es).2 = [] := by
  intro es
  induction es with
  | nil => intro s _ _; rfl
  | cons e es ih =>
    intro s hb hpt
    cases e with
    | push now v => simp [pushTimes] at hpt
    | expire now =>
      cases hd : s.deadline with
      | none =>
        simp only [run, step, resume, hd, Option.elim]
        exact ih s hb hpt
      | some d =>
        have hbe : s.buffer.isEmpty = true := by simp [hb]
        simp only [run, step, resume, hd, hbe, if_true, Option.elim]
        exact ih _ hb hpt

lemma emit_lt_of_later {T : Type} (w B : Nat) :
    ∀ (es : List (Event T)) (s : State T) (t0 : Nat), WF w s t0 es →
      (∀ τ ∈ pushTimes es, τ ≤ B) →
      ∀ p ∈ (run w s es).2, ∀ q ∈ (run w s es).2, p.1 < q.1 → p.1 < B := by
  intro es
  induction es with
  | nil => intro s t0 _ _ p hp; simp [run] at hp
  | cons e es ih =>
    intro s t0 hwf hB p hp q hq hpq
    cases e with
    | push now v =>
      obtain ⟨ht0, hwf'⟩ := hwf
      have hBtail : ∀ τ ∈ pushTimes es, τ ≤ B := by
        intro τ hτ
        exact hB τ (by simp [pushTimes, hτ])
      cases hd : s.deadline with
      | none =>
        have hwfr : WF w (⟨[], some (now + w), s.tasks + 1⟩ : State T) (now + 1) es := by
          simpa [step, Push, hd] using hwf'
        simp [run, step, Push, hd] at hp hq
        rcases hp with hp | hp
        · rcases hq with hq | hq
          · rw [hp, hq] at hpq
            exact absurd hpq (lt_irrefl _)
          · have hne : pushTimes es ≠ [] := by
              intro h0
              rw [no_push_no_emit w es _ rfl h0] at hq
              simp at hq
            obtain ⟨τ, hτ⟩ := List.exists_mem_of_ne_nil _ hne
            have h1 := pushTimes_lb w es _ (now + 1) hwfr τ hτ
            have h2 := hBtail τ hτ
            rw [hp]
            simp only []
            omega
        · rcases hq with hq | hq
          · have hlb := emit_time_lb w es _ (now + 1) hwfr p hp
            rw [hq] at hpq
            simp only [] at hpq
            omega
          · exact ih _ (now + 1) hwfr hBtail p hp q hq hpq
      | some d =>
        simp [run, step, Push, hd] at hp hq
        exact ih _ (now + 1) (by simpa [step, Push, hd] using hwf')
          hBtail p hp q hq hpq
    | expire now =>
      obtain ⟨ht0, ⟨d, hd, hdn⟩, hwf'⟩ := hwf
      by_cases hb : s.buffer.isEmpty
      · simp [run, step, resume, hd, hb] at hp hq
        exact ih _ (now + 1) (by simpa [step, resume, hd, hb] using hwf')
          hB p hp q hq hpq
      · have hwfr : WF w (⟨[], some (now + w), s.tasks - 1 + 1⟩ : State T) (now + 1) es := by
          simpa [step, resume, hd, hb] using hwf'
        simp [run, step, resume, hd, hb] at hp hq
        rcases hp with hp | hp
        · rcases hq with hq | hq
          · rw [hp, hq] at hpq
            exact absurd hpq (lt_irrefl _)
          · have hne : pushTimes es ≠ [] := by
              intro h0
              rw [no_push_no_emit w es _ rfl h0] at hq
              simp at hq
            obtain ⟨τ, hτ⟩ := List.exists_mem_of_ne_nil _ hne
            have h1 := pushTimes_lb w es _ (now + 1) hwfr τ hτ
            have h2 := hB τ hτ
            rw [hp]
            simp only []
            omega
        · rcases hq with hq | hq
          · have hlb := emit_time_lb w es _ (now + 1) hwfr p hp
            rw [hq] at hpq
            simp only [] at hpq
            omega
          · exact ih _ (now + 1) hwfr hB p hp q hq hpq

lemma chain_lt_concat (w : Nat) (hw : 0 < w) :
    ∀ (L : List Nat) (x b : Nat),
      List.Chain (fun a c => a + w ≤ c) x (L ++ [b]) →
      List.Chain (fun a c => a + w ≤ c) x L ∧ ∀ y ∈ x :: L, y < b := by
  intro L
  induction L with
  | nil =>
    intro x b hc
    have hxb : x + w ≤ b := by simpa using hc
    refine ⟨List.Chain.nil, ?_⟩
    intro y hy
    simp at hy
    omega
  | cons z L ih =>
    intro x b hc
    obtain ⟨hxz, hc'⟩ :=
      (by simpa using hc :
        x + w ≤ z ∧ List.Chain (fun a c => a + w ≤ c) z (L ++ [b]))
    obtain ⟨hcL, hlt⟩ := ih z b hc'
    refine ⟨List.chain_cons.mpr ⟨hxz, hcL⟩, ?_⟩
    intro y hy
    rcases List.mem_cons.mp hy with rfl | hy
    · have hz : z < b := hlt z (List.mem_cons_self z L)
      omega
    · exact hlt y hy

/-- C3: rate bound.  For any well-formed serialized history whose `Push`
calls all acquire the lock within `D` of the time origin `t0` — the timer
expiries, in particular the trailing window-boundary flush after the last
push, may run at any later time — the callback is invoked at most
`⌈D / w⌉ + 1` times, with the ceiling written as `(D + w - 1) / w` in
natural arithmetic for a positive window `w`. -/
theorem rate_bound {T : Type} (w D t0 : Nat) (hw : 0 < w) (es : List (Event T))
    (hwf : WF w (initState T) t0 es)
    (hspan : ∀ τ ∈ pushTimes es, τ ≤ t0 + D) :
    (run w (initState T) es).2.length ≤ (D + w - 1) / w + 1 := by
  have hchain := emit_chain_init w es t0 hwf
  have hlen : (run w (initState T) es).2.length =
      ((run w (initState T) es).2.map Prod.fst).length := by simp
  rw [hlen]
  cases hts : (run w (initState T) es).2.map Prod.fst with
  | nil => simp
  | cons x rest =>
    rcases List.eq_nil_or_concat rest with rfl | ⟨L, b, rfl⟩
    · simp
    · simp only [List.concat_eq_append] at hts ⊢
      rw [hts] at hchain
      have hchain' : List.Chain (fun a c => a + w ≤ c) x (L ++ [b]) := hchain
      obtain ⟨hcL, hlt⟩ := chain_lt_concat w hw L x b hchain'
      obtain ⟨y, hy, hle⟩ := chain_le_exists w L x hcL
      have hyb : y < b := hlt y hy
      have hymem : y ∈ (run w (initState T) es).2.map Prod.fst := by
        rw [hts]
        rcases List.mem_cons.mp hy with rfl | h
        · exact List.mem_cons_self _ _
        · exact List.mem_cons_of_mem _ (List.mem_append_left _ h)
      have hbmem : b ∈ (run w (initState T) es).2.map Prod.fst := by
        rw [hts]
        refine List.mem_cons_of_mem _ (List.mem_append_right _ ?_)
        simp
      obtain ⟨py, hpy, hpyfst⟩ := List.mem_map.mp hymem
      obtain ⟨pb, hpb, hpbfst⟩ := List.mem_map.mp hbmem
      have hyB : y < t0 + D := by
        have h := emit_lt_of_later w (t0 + D) es _ t0 hwf hspan py hpy pb hpb
          (by rw [hpyfst, hpbfst]; exact hyb)
        rw [← hpyfst]
        exact h
      have hx_lb : t0 ≤ x := by
        have hxmem : x ∈ (run w (initState T) es).2.map Prod.fst := by
          rw [hts]; exact List.mem_cons_self _ _
        obtain ⟨q, hq, hqfst⟩ := List.mem_map.mp hxmem
        rw [← hqfst]
        exact emit_time_lb w es _ t0 hwf q hq
      have hA : t0 + (L.length * w + 1) ≤ t0 + D := by
        calc t0 + (L.length * w + 1) = (t0 + L.length * w) + 1 := by ring
          _ ≤ (x + L.length * w) + 1 :=
            Nat.add_le_add_right (Nat.add_le_add_right hx_lb _) 1
          _ ≤ y + 1 := Nat.add_le_add_right hle 1
          _ ≤ t0 + D := hyB
      have hB1 : L.length * w + 1 ≤ D := Nat.le_of_add_le_add_left hA
      have hD1 : 1 ≤ D := le_trans (Nat.le_add_left 1 _) hB1
      have hdiv : L.length ≤ (D - 1) / w :=
        (Nat.le_div_iff_mul_le hw).mpr (Nat.le_pred_of_lt hB1)
      have hre : (D + w - 1) / w = (D - 1) / w + 1 := by
        have h9 : D + w - 1 = (D - 1) + w := by omega
        rw [h9, Nat.add_div_right _ hw]
      rw [hre]
      simp only [List.length_cons, List.length_append, List.length_singleton]
      exact Nat.add_le_add_right (Nat.add_le_add_right hdiv 1) 1

theorem rate_bound_witness :
    0 < 5 ∧
      Throttler.WF 5 (Throttler.initState Nat) 0
        [.push 0 1, .push 2 2, .expire 5, .push 7 3, .expire 10] ∧
      (Throttler.run 5 (Throttler.initState Nat)
          [.push 0 1, .push 2 2, .expire 5, .push 7 3, .expire 10]).2.length ≤
        (7 + 5 - 1) / 5 + 1 :=
  ⟨by decide,
    by simp [Throttler.WF, Throttler.step, Throttler.Push, Throttler.resume,
      Throttler.initState],
    rate_bound 5 7 0 (by decide) _
      (by simp [Throttler.WF, Throttler.step, Throttler.Push, Throttler.resume,
        Throttler.initState])
      (by decide)⟩

theorem single_countdown_task_witness :
    Throttler.Reachable 5
        ((Throttler.run 5 (Throttler.initState Nat) [.push 0 7]).1) ∧
      ((Throttler.run 5 (Throttler.initState Nat) [.push 0 7]).1).tasks = 1 :=
  ⟨⟨[.push 0 7], rfl⟩,
    ((single_countdown_task 5
      ((Throttler.run 5 (Throttler.initState Nat) [.push 0 7]).1)
      ⟨[.push 0 7], rfl⟩).1).trans (by decide)⟩

end Throttler

namespace Locking

/-- C8: calling `Push` on the same throttler from inside the callback
deadlocks.  `Push` acquires the mutex and runs the callback while holding it;
a callback that itself begins with `Push`'s mutex operations attempts to
acquire the already-held non-reentrant mutex, so the execution never completes
normally (`none`).  By contrast, `Push` with a callback performing no mutex
operations completes and leaves the mutex released. -/
theorem push_reentrant_deadlock (cb rest : List LockOp) :
    runOps false (pushOps (pushOps cb ++ rest)) = none ∧
      runOps false (pushOps []) = some false := by
  constructor
  · simp [pushOps, runOps]
  · rfl

end Locking

namespace Timelatch

lemma triggeredRun_count_zero :
    ∀ (ns : List Int) (l : TimeLatch), l.before = false →
      (∀ x ∈ ns, l.t ≤ x) → (triggeredRun l ns).count true = 0 := by
  intro ns
  induction ns with
  | nil => intro l _ _; rfl
  | cons n ns ih =>
    intro l hb hx
    have hnt : l.t ≤ n := hx n (List.mem_cons_self n ns)
    have hres : (l.TriggeredAt n).1 = false := by
      simp [TimeLatch.TriggeredAt, hb]
    have hb' : (l.TriggeredAt n).2.before = false := by
      simp [TimeLatch.TriggeredAt, not_lt.mpr hnt]
    have ht' : (l.TriggeredAt n).2.t = l.t := rfl
    simp only [triggeredRun, hres, List.count_cons]
    simp only [ih (l.TriggeredAt n).2 hb'
      (by rw [ht']; intro x hx'; exact hx x (List.mem_cons_of_mem n hx'))]
    simp

/-- C9 (amended): the latch is one-shot for monotone observations: for every
latch state and every sequence of `TriggeredAt` calls whose reference times
are nondecreasing, with no intervening change of the target time, at most one
call returns `true`. -/
theorem latch_one_shot (l : TimeLatch) (ns : List Int)
    (hmono : List.Pairwise (· ≤ ·) ns) :
    (triggeredRun l ns).count true ≤ 1 := by
  induction ns generalizing l with
  | nil => simp [triggeredRun]
  | cons n ns ih =>
    obtain ⟨hn, htail⟩ := List.pairwise_cons.mp hmono
    by_cases hr : (l.TriggeredAt n).1 = true
    · have hnt : l.t ≤ n := by
        have h := hr
        simp [TimeLatch.TriggeredAt, not_lt] at h
        exact h.2
      have hnlt : decide (n < l.t) = false := decide_eq_false (not_lt.mpr hnt)
      have hzero : (triggeredRun (l.TriggeredAt n).2 ns).count true = 0 := by
        refine triggeredRun_count_zero ns _ ?_ ?_
        · simp [TimeLatch.TriggeredAt, hnlt]
        · intro x hx
          exact le_trans hnt (hn x hx)
      simp [triggeredRun, List.count_cons, hr, hzero]
    · have hr' : (l.TriggeredAt n).1 = false := by
        simpa using hr
      simp only [triggeredRun, List.count_cons, hr']
      simpa using ih (l.TriggeredAt n).2 htail

/-- C9 (counterexample): with reference times that move backwards past the
target, `TriggeredAt` returns `true` twice without any change of the target
time, so the claim fails for arbitrary (non-monotone) reference sequences. -/
theorem latch_one_shot_counterexample :
    ¬ ((triggeredRun (NewAt 10 0) [10, 5, 12]).count true ≤ 1) := by decide

theorem latch_one_shot_witness :
    List.Pairwise (fun a b : Int => a ≤ b) [0, 10, 12] ∧
      (triggeredRun (NewAt 10 0) [0, 10, 12]).count true ≤ 1 :=
  ⟨by decide, latch_one_shot (NewAt 10 0) [0, 10, 12] (by decide)⟩

lemma latchAfter_NewAt :
    ∀ (ns : List Int) (t r : Int),
      latchAfter (NewAt t r) ns = NewAt t (ns.getLastD r) := by
  intro ns
  induction ns with
  | nil => intro t r; rfl
  | cons n ns ih =>
    intro t r
    rw [List.getLastD_cons]
    have h2 : ((NewAt t r).TriggeredAt n).2 = NewAt t n := rfl
    show latchAfter ((NewAt t r).TriggeredAt n).2 ns = NewAt t (ns.getLastD n)
    rw [h2, ih]

lemma le_getLastD {t : Int} :
    ∀ (ns : List Int) (r : Int), t ≤ r → (∀ x ∈ ns, t ≤ x) →
      t ≤ ns.getLastD r := by
  intro ns
  induction ns with
  | nil => intro r hr _; exact hr
  | cons n ns ih =>
    intro r _ hx
    rw [List.getLastD_cons]
    exact ih n (hx n (List.mem_cons_self n ns))
      (fun x hx' => hx x (List.mem_cons_of_mem n hx'))

/-- C10 (amended): after constructing a latch with `NewAt t r` and any
sequence `ns` of prior `TriggeredAt` observations, the next
`TriggeredAt now` returns `true` iff the most recently observed reference
time (`r` when `ns` is empty, otherwise the last element of `ns`) was
strictly before the target `t` and `now` is at-or-after `t`; `SetTimeAt`
produces exactly the state `NewAt` produces, so the same characterization
applies after a `SetTimeAt`; and when the construction reference satisfies
`t ≤ r` and all later reference times are at least `r` (nondecreasing wall
clock), every `TriggeredAt` call returns `false` until the target changes. -/
theorem triggeredAt_characterization (t r now : Int) (ns : List Int)
    (l : TimeLatch) :
    (((latchAfter (NewAt t r) ns).TriggeredAt now).1 =
        (decide (ns.getLastD r < t) && decide (t ≤ now))) ∧
      l.SetTimeAt t r = NewAt t r ∧
      (t ≤ r → (∀ x ∈ ns, r ≤ x) →
        ((latchAfter (NewAt t r) ns).TriggeredAt now).1 = false) := by
  have hchar : ((latchAfter (NewAt t r) ns).TriggeredAt now).1 =
      (decide (ns.getLastD r < t) && decide (t ≤ now)) := by
    rw [latchAfter_NewAt]
    simp [TimeLatch.TriggeredAt, NewAt, ← decide_not, not_lt]
  refine ⟨hchar, rfl, fun htr hx => ?_⟩
  have hlast : t ≤ ns.getLastD r :=
    le_getLastD ns r htr (fun x hx' => le_trans htr (hx x hx'))
  rw [hchar, decide_eq_false (not_lt.mpr hlast)]
  simp

/-- C10 (counterexample): a latch constructed with `NewAt 10 15` — reference
already at-or-after the target — still returns `true` from a later
`TriggeredAt` call after observing a reference time that moved back before
the target, refuting the unconditional claim that every call returns `false`
until the target changes. -/
theorem triggeredAt_characterization_counterexample :
    (10 : Int) ≤ 15 ∧ ((latchAfter (NewAt 10 15) [5]).TriggeredAt 12).1 = true := by
  decide

theorem triggeredAt_characterization_witness :
    (((latchAfter (NewAt 10 15) [16, 17]).TriggeredAt 20).1 =
        (decide (([16, 17] : List Int).getLastD 15 < 10) && decide ((10 : Int) ≤ 20))) ∧
      ((10 : Int) ≤ 15) ∧
      ((latchAfter (NewAt 10 15) [16, 17]).TriggeredAt 20).1 = false :=
  ⟨(triggeredAt_characterization 10 15 20 [16, 17] (NewAt 10 15)).1,
    by decide,
    (triggeredAt_characterization 10 15 20 [16, 17] (NewAt 10 15)).2.2
      (by decide) (by decide)⟩

end Timelatch